import Mathlib

/-!
Verification development for the iPhone WebRTC TURN speaker-streaming
gateway.  Python source files are shallowly embedded as Lean functions:
bytes are `Nat` values (0‥255), byte strings are `List Nat`, Python
`dict`s coming from JSON are association lists, and effectful
collaborators (the JSON parser of the standard library, tool executors,
the SDP answer computation of `aiortc`) are passed in as explicit
function parameters.  Every definition mirrors the control flow of the
corresponding Python function.
-/

/-! ## FIFO audio queue — `src/gateway/audio/audio_queue.py` -/

/-- State of `AudioQueue`: queued PCM blobs, the partially consumed
current blob, and the read offset into it. -/
structure AudioQueue where
  chunks : List (List Nat)
  current : List Nat
  offset : Nat
deriving Repr, DecidableEq

/-- `AudioQueue.__init__`: empty queue. -/
def AudioQueue.empty : AudioQueue := ⟨[], [], 0⟩

/-- `AudioQueue.enqueue`: append a blob unless it is empty. -/
def AudioQueue.enqueue (q : AudioQueue) (data : List Nat) : AudioQueue :=
  if data = [] then q else { q with chunks := q.chunks ++ [data] }

/-- The `while written < n` loop of `AudioQueue.read`, written as a
recursion on the number of bytes still needed.  Returns the bytes
produced together with the final `(current, offset, chunks)` state.
The zero-padding of the preallocated `bytearray(n)` shows up as the
`List.replicate` in the "queue drained" branch. -/
def readBytes : Nat → List Nat → Nat → List (List Nat) →
    List Nat × List Nat × Nat × List (List Nat)
  | 0, cur, off, chs => ([], cur, off, chs)
  | need+1, cur, off, chs =>
    if cur.length ≤ off then
      match chs with
      | [] => (List.replicate (need+1) 0, cur, off, [])
      | c :: rest =>
        let tc := min c.length (need+1)
        let r := readBytes (need+1 - tc) c tc rest
        (c.take tc ++ r.1, r.2)
    else
      let tc := min (cur.length - off) (need+1)
      let r := readBytes (need+1 - tc) cur (off + tc) chs
      ((cur.drop off).take tc ++ r.1, r.2)
termination_by need _ _ chs => need + chs.length
decreasing_by
  · simp_wf; omega
  · simp_wf; omega

/-- `AudioQueue.read`: read exactly `n` bytes, zero-padded. -/
def AudioQueue.read (q : AudioQueue) (n : Nat) : List Nat × AudioQueue :=
  let r := readBytes n q.current q.offset q.chunks
  (r.1, ⟨r.2.2.2, r.2.1, r.2.2.1⟩)

/-- `AudioQueue.clear`. -/
def AudioQueue.clear (_q : AudioQueue) : AudioQueue := ⟨[], [], 0⟩

/-- The byte stream still readable from a queue state: the rest of the
current blob followed by all queued blobs. -/
def AudioQueue.stream (q : AudioQueue) : List Nat :=
  q.current.drop q.offset ++ q.chunks.flatten

/-- Pad a byte string with zeros up to length `n`. -/
def padZero (n : Nat) (l : List Nat) : List Nat :=
  l ++ List.replicate (n - l.length) 0

theorem padZero_nil (n : Nat) : padZero n [] = List.replicate n 0 := by
  simp [padZero]

theorem padZero_length {n : Nat} {l : List Nat} (h : l.length ≤ n) :
    (padZero n l).length = n := by
  simp [padZero]; omega

/-- Splitting a padded take at `a` bytes. -/
theorem padZero_split (a b : Nat) (S : List Nat) (h : a ≤ S.length) :
    padZero (a + b) (S.take (a + b)) =
      S.take a ++ padZero b ((S.drop a).take b) := by
  have hc : (a + b) - (S.take (a + b)).length
      = b - ((S.drop a).take b).length := by
    simp only [List.length_take, List.length_drop]
    omega
  unfold padZero
  rw [hc, List.take_add, List.append_assoc]

/-- Remaining readable stream of the state returned by `readBytes`. -/
def afterStream (r : List Nat × List Nat × Nat × List (List Nat)) : List Nat :=
  r.2.1.drop r.2.2.1 ++ r.2.2.2.flatten

/-- `readBytes` produces the next `need` stream bytes zero-padded, and
leaves exactly the stream with those bytes dropped. -/
theorem readBytes_spec (need : Nat) (cur : List Nat) (off : Nat)
    (chs : List (List Nat)) :
    (readBytes need cur off chs).1
      = padZero need ((cur.drop off ++ chs.flatten).take need) ∧
    afterStream (readBytes need cur off chs)
      = (cur.drop off ++ chs.flatten).drop need := by
  induction need, cur, off, chs using readBytes.induct with
  | case1 cur off chs =>
    simp [readBytes, padZero, afterStream]
  | case2 need cur off hle =>
    rw [List.drop_eq_nil_of_le hle]
    simp [readBytes, hle, padZero, afterStream]
  | case3 need cur off hle c rest tc ih =>
    rw [show tc = min c.length (need + 1) from rfl] at ih
    obtain ⟨ih1, ih2⟩ := ih
    have hdrop : cur.drop off = [] := List.drop_eq_nil_of_le hle
    have htc1 : min c.length (need + 1) ≤ c.length := min_le_left _ _
    have heq : readBytes (need + 1) cur off (c :: rest)
        = (c.take (min c.length (need + 1))
             ++ (readBytes (need + 1 - min c.length (need + 1)) c
                   (min c.length (need + 1)) rest).1,
           (readBytes (need + 1 - min c.length (need + 1)) c
             (min c.length (need + 1)) rest).2) := by
      rw [readBytes.eq_def]
      simp [hle]
    have heq1 : (readBytes (need + 1) cur off (c :: rest)).1
        = c.take (min c.length (need + 1))
            ++ (readBytes (need + 1 - min c.length (need + 1)) c
                  (min c.length (need + 1)) rest).1 := by rw [heq]
    have heq2 : (readBytes (need + 1) cur off (c :: rest)).2
        = (readBytes (need + 1 - min c.length (need + 1)) c
             (min c.length (need + 1)) rest).2 := by rw [heq]
    constructor
    · rw [heq1, ih1, hdrop]
      simp only [List.nil_append, List.flatten_cons]
      rw [← List.drop_append_of_le_length htc1,
        ← @List.take_append_of_le_length _ c rest.flatten _ htc1]
      have hsplit := padZero_split (min c.length (need + 1))
        (need + 1 - min c.length (need + 1)) (c ++ rest.flatten)
        (le_trans htc1 (by simp))
      rw [show min c.length (need + 1)
            + (need + 1 - min c.length (need + 1)) = need + 1 from by omega]
        at hsplit
      rw [← hsplit]
    · have ha : afterStream (readBytes (need + 1) cur off (c :: rest))
          = afterStream (readBytes (need + 1 - min c.length (need + 1)) c
              (min c.length (need + 1)) rest) := by
        unfold afterStream
        rw [heq2]
      rw [ha, ih2, hdrop]
      simp only [List.nil_append, List.flatten_cons]
      rw [← List.drop_append_of_le_length htc1, List.drop_drop]
      congr 1
      omega
  | case4 need cur off chs hle tc ih =>
    rw [show tc = min (cur.length - off) (need + 1) from rfl] at ih
    obtain ⟨ih1, ih2⟩ := ih
    have htc1 : min (cur.length - off) (need + 1) ≤ (cur.drop off).length := by
      simp only [List.length_drop]
      exact min_le_left _ _
    have heq : readBytes (need + 1) cur off chs
        = ((cur.drop off).take (min (cur.length - off) (need + 1))
             ++ (readBytes (need + 1 - min (cur.length - off) (need + 1)) cur
                   (off + min (cur.length - off) (need + 1)) chs).1,
           (readBytes (need + 1 - min (cur.length - off) (need + 1)) cur
             (off + min (cur.length - off) (need + 1)) chs).2) := by
      rw [readBytes.eq_def]
      simp [hle]
    have heq1 : (readBytes (need + 1) cur off chs).1
        = (cur.drop off).take (min (cur.length - off) (need + 1))
            ++ (readBytes (need + 1 - min (cur.length - off) (need + 1)) cur
                  (off + min (cur.length - off) (need + 1)) chs).1 := by
      rw [heq]
    have heq2 : (readBytes (need + 1) cur off chs).2
        = (readBytes (need + 1 - min (cur.length - off) (need + 1)) cur
            (off + min (cur.length - off) (need + 1)) chs).2 := by rw [heq]
    have hdd : cur.drop (off + min (cur.length - off) (need + 1))
        = (cur.drop off).drop (min (cur.length - off) (need + 1)) := by
      rw [List.drop_drop]
    constructor
    · rw [heq1, ih1, hdd, ← List.drop_append_of_le_length htc1,
        ← @List.take_append_of_le_length _ (cur.drop off) chs.flatten _ htc1]
      have hsplit := padZero_split (min (cur.length - off) (need + 1))
        (need + 1 - min (cur.length - off) (need + 1))
        (cur.drop off ++ chs.flatten) (le_trans htc1 (by simp))
      rw [show min (cur.length - off) (need + 1)
            + (need + 1 - min (cur.length - off) (need + 1))
            = need + 1 from by omega] at hsplit
      rw [← hsplit]
    · have ha : afterStream (readBytes (need + 1) cur off chs)
          = afterStream
              (readBytes (need + 1 - min (cur.length - off) (need + 1)) cur
                (off + min (cur.length - off) (need + 1)) chs) := by
        unfold afterStream
        rw [heq2]
      rw [ha, ih2, hdd, ← List.drop_append_of_le_length htc1, List.drop_drop]
      congr 1
      omega

/-- `read` returns the next `n` stream bytes, zero-padded. -/
theorem AudioQueue.read_fst (q : AudioQueue) (n : Nat) :
    (q.read n).1 = padZero n (q.stream.take n) :=
  (readBytes_spec n q.current q.offset q.chunks).1

/-- `read` advances the stream by `n` bytes. -/
theorem AudioQueue.read_stream (q : AudioQueue) (n : Nat) :
    (q.read n).2.stream = q.stream.drop n :=
  (readBytes_spec n q.current q.offset q.chunks).2

/-- `read` returns exactly `n` bytes. -/
theorem AudioQueue.read_length (q : AudioQueue) (n : Nat) :
    (q.read n).1.length = n := by
  rw [q.read_fst n]
  exact padZero_length (by simp only [List.length_take]; omega)

/-- `enqueue` extends the readable stream by the blob. -/
theorem AudioQueue.stream_enqueue (q : AudioQueue) (b : List Nat) :
    (q.enqueue b).stream = q.stream ++ b := by
  by_cases hb : b = []
  · simp [AudioQueue.enqueue, hb]
  · simp [AudioQueue.enqueue, hb, AudioQueue.stream]

/-- Enqueue a whole list of blobs in order. -/
def enqueueAll (bs : List (List Nat)) : AudioQueue :=
  bs.foldl AudioQueue.enqueue AudioQueue.empty

theorem stream_foldl_enqueue (bs : List (List Nat)) (q : AudioQueue) :
    (bs.foldl AudioQueue.enqueue q).stream = q.stream ++ bs.flatten := by
  induction bs generalizing q with
  | nil => simp
  | cons b bs ih =>
    simp only [List.foldl_cons, List.flatten_cons]
    rw [ih, AudioQueue.stream_enqueue, List.append_assoc]

/-- After enqueuing `bs` on a fresh queue the readable stream is their
concatenation. -/
theorem stream_enqueueAll (bs : List (List Nat)) :
    (enqueueAll bs).stream = bs.flatten := by
  rw [enqueueAll, stream_foldl_enqueue]
  simp [AudioQueue.empty, AudioQueue.stream]

/-- Perform the reads `read n₁, read n₂, …` in order, collecting the
returned byte strings. -/
def readSeq (q : AudioQueue) : List Nat → List (List Nat)
  | [] => []
  | n :: ns => (q.read n).1 :: readSeq (q.read n).2 ns

theorem readSeq_lengths (ns : List Nat) (q : AudioQueue) :
    List.Forall₂ (fun out n => List.length out = n) (readSeq q ns) ns := by
  induction ns generalizing q with
  | nil => exact List.Forall₂.nil
  | cons n ns ih => exact List.Forall₂.cons (q.read_length n) (ih _)

theorem readSeq_flatten (ns : List Nat) (q : AudioQueue) :
    (readSeq q ns).flatten = padZero ns.sum (q.stream.take ns.sum) := by
  induction ns generalizing q with
  | nil => simp [readSeq, padZero]
  | cons n ns ih =>
    simp only [readSeq, List.flatten_cons, List.sum_cons]
    rw [ih, q.read_stream n, q.read_fst n]
    by_cases hn : n ≤ q.stream.length
    · rw [padZero_split n ns.sum q.stream hn]
      congr 1
      unfold padZero
      rw [show n - (q.stream.take n).length = 0 from by
        simp only [List.length_take]; omega]
      simp
    · have h1 : q.stream.take n = q.stream :=
        List.take_of_length_le (by omega)
      have h2 : q.stream.drop n = [] := List.drop_eq_nil_of_le (by omega)
      have h3 : q.stream.take (n + ns.sum) = q.stream :=
        List.take_of_length_le (by omega)
      rw [h1, h2, h3]
      simp only [List.take_nil, padZero_nil]
      unfold padZero
      rw [List.append_assoc, ← List.replicate_add]
      congr 2
      omega

/-- C1: on a fresh FIFO queue, after `enqueue(b₁)…enqueue(bₖ)`, a read
sequence `read(n₁)…read(nₘ)` returns exactly `nⱼ` bytes per read, and the
concatenation of the reads is the first `n₁+⋯+nₘ` bytes of `b₁‖…‖bₖ`
zero-padded to the requested total; `read 0` is empty and `read n` on an
empty queue is `n` zero bytes. -/
theorem audio_queue_fifo_read_contract (bs : List (List Nat)) (ns : List Nat)
    (n : Nat) :
    List.Forall₂ (fun out m => List.length out = m)
      (readSeq (enqueueAll bs) ns) ns ∧
    (readSeq (enqueueAll bs) ns).flatten
      = padZero ns.sum (bs.flatten.take ns.sum) ∧
    ((enqueueAll bs).read 0).1 = [] ∧
    (AudioQueue.empty.read n).1 = List.replicate n 0 := by
  refine ⟨readSeq_lengths ns _, ?_, ?_, ?_⟩
  · rw [readSeq_flatten, stream_enqueueAll]
  · exact List.length_eq_zero.mp ((enqueueAll bs).read_length 0)
  · rw [AudioQueue.read_fst]
    simp [AudioQueue.empty, AudioQueue.stream, padZero_nil]

/-! ## JSON-ish Python values

Python values passed around as tool arguments: JSON objects become
association lists, and the remaining shapes cover the
"neither a mapping nor a string" cases of the dispatcher. -/

inductive PyVal where
  | obj (fields : List (String × PyVal))
  | str (s : String)
  | num (n : Int)
  | arr (items : List PyVal)
  | bool (b : Bool)
  | null
deriving Repr

/-! ## Conversation messages — `src/voice_assistant/orchestrator.py` -/

/-- One structured tool call: `{"function": {"name": …, "arguments": …}}`. -/
structure ToolCallRec where
  name : String
  args : PyVal
deriving Repr

/-- A conversation message dict.  `toolCalls = []` models the absence of
a truthy `tool_calls` key. -/
structure Msg where
  role : String
  content : String
  toolCalls : List ToolCallRec
deriving Repr

def Msg.isTool (m : Msg) : Bool := m.role = "tool"

/-- Python's `msg.get("tool_calls")` truthiness. -/
def Msg.hasTC (m : Msg) : Bool := !m.toolCalls.isEmpty

def noMsg : Msg := ⟨"", "", []⟩

/-- The cut index computed by `Orchestrator._trim_history` when the
history exceeds the limit: start at `len - limit`, advance past
`tool`-role messages, then if the message before the cut carries
`tool_calls` pull the cut back over it and any `tool` messages
preceding it. -/
def trimCut (msgs : List Msg) (limit : Nat) : Nat :=
  let cut0 := msgs.length - limit
  let c1 := cut0 + ((msgs.drop cut0).takeWhile Msg.isTool).length
  if 0 < c1 ∧ (msgs.getD (c1 - 1) noMsg).hasTC then
    (c1 - 1) - (((msgs.take (c1 - 1)).reverse).takeWhile Msg.isTool).length
  else c1

/-- `Orchestrator._trim_history`: no-op when within the limit, else drop
the prefix before the computed cut. -/
def trimHistory (msgs : List Msg) (limit : Nat) : List Msg :=
  if msgs.length ≤ limit then msgs
  else msgs.drop (trimCut msgs limit)

/-- Well-formed history: a `tool` message never opens the history and is
always preceded by another `tool` message or by an assistant message
carrying `tool_calls`; and a message carrying `tool_calls` is
immediately followed by a `tool` message. -/
def WFHist (msgs : List Msg) : Prop :=
  ∀ i, i < msgs.length →
    ((msgs.getD i noMsg).isTool →
      0 < i ∧ ((msgs.getD (i - 1) noMsg).isTool ∨
               (msgs.getD (i - 1) noMsg).hasTC)) ∧
    ((msgs.getD i noMsg).hasTC →
      i + 1 < msgs.length ∧ (msgs.getD (i + 1) noMsg).isTool)

instance (msgs : List Msg) : Decidable (WFHist msgs) := by
  unfold WFHist
  exact Nat.decidableBallLT _ _

theorem takeWhile_stop {α : Type} (p : α → Bool) (l : List α) (d : α)
    (h : (l.takeWhile p).length < l.length) :
    ¬ p (l.getD (l.takeWhile p).length d) := by
  induction l with
  | nil => simp at h
  | cons a t ih =>
    by_cases hp : p a
    · simp only [List.takeWhile_cons, hp, if_true, List.length_cons] at h ⊢
      simpa using ih (by omega)
    · simp [List.takeWhile_cons, hp]

theorem takeWhile_length_le {α : Type} (p : α → Bool) (l : List α) :
    (l.takeWhile p).length ≤ l.length := by
  induction l with
  | nil => simp
  | cons a t ih =>
    by_cases hp : p a <;> simp [List.takeWhile_cons, hp] <;> omega

theorem getD_drop {α : Type} (l : List α) (m k : Nat) (d : α) :
    (l.drop m).getD k d = l.getD (m + k) d := by
  induction l generalizing m k with
  | nil => simp
  | cons a t ih =>
    cases m with
    | zero => simp
    | succ m =>
      simp only [List.drop_succ_cons, ih, Nat.succ_add]
      rfl

/-- Under well-formedness the pull-back branch of the trim never fires:
the cut is `len − limit` advanced past the leading `tool` run, and the
message there (if any) is not a `tool` message. -/
theorem trimCut_eq_of_wf (msgs : List Msg) (limit : Nat) (hwf : WFHist msgs)
    (hlen : limit < msgs.length) :
    trimCut msgs limit
        = (msgs.length - limit)
          + ((msgs.drop (msgs.length - limit)).takeWhile Msg.isTool).length ∧
    ∀ h : (msgs.length - limit)
          + ((msgs.drop (msgs.length - limit)).takeWhile Msg.isTool).length
          < msgs.length,
      ¬ (msgs.getD ((msgs.length - limit)
          + ((msgs.drop (msgs.length - limit)).takeWhile Msg.isTool).length)
          noMsg).isTool := by
  have hcut0 : msgs.length - limit ≤ msgs.length := Nat.sub_le _ _
  have htw : ((msgs.drop (msgs.length - limit)).takeWhile Msg.isTool).length
      ≤ (msgs.drop (msgs.length - limit)).length :=
    takeWhile_length_le _ _
  have hdl : (msgs.drop (msgs.length - limit)).length
      = msgs.length - (msgs.length - limit) := List.length_drop _ _
  have hnt : ∀ h : (msgs.length - limit)
        + ((msgs.drop (msgs.length - limit)).takeWhile Msg.isTool).length
        < msgs.length,
      ¬ (msgs.getD ((msgs.length - limit)
          + ((msgs.drop (msgs.length - limit)).takeWhile Msg.isTool).length)
          noMsg).isTool := by
    intro h
    have hlt : ((msgs.drop (msgs.length - limit)).takeWhile Msg.isTool).length
        < (msgs.drop (msgs.length - limit)).length := by omega
    have := takeWhile_stop Msg.isTool (msgs.drop (msgs.length - limit)) noMsg hlt
    rwa [getD_drop] at this
  refine ⟨?_, hnt⟩
  unfold trimCut
  set c1 := (msgs.length - limit)
    + ((msgs.drop (msgs.length - limit)).takeWhile Msg.isTool).length with hc1
  have hc1le : c1 ≤ msgs.length := by omega
  have hcond : ¬ (0 < c1 ∧ (msgs.getD (c1 - 1) noMsg).hasTC) := by
    rintro ⟨hpos, htc⟩
    have hi : c1 - 1 < msgs.length := by omega
    have h2 := (hwf (c1 - 1) hi).2 htc
    have hc1lt : c1 < msgs.length := by omega
    have hT : (msgs.getD c1 noMsg).isTool := by
      have := h2.2
      rwa [show c1 - 1 + 1 = c1 from by omega] at this
    exact hnt hc1lt hT
  rw [if_neg hcond]

/-- C2 (amended): for well-formed histories, after any trim the head is
not a `tool` message and, since the trimmed history is a suffix
`msgs.drop c`, no tool group (`tool_calls` carrier at `p` with its
`tool` results at `p+1…j`) is split by the cut `c`. -/
theorem trim_history_preserves_tool_groups (msgs : List Msg) (limit : Nat)
    (hwf : WFHist msgs) :
    (∀ m, (trimHistory msgs limit).head? = some m → m.isTool = false) ∧
    ∃ c, trimHistory msgs limit = msgs.drop c ∧
      ∀ p j, p < j → j < msgs.length → (msgs.getD p noMsg).hasTC →
        (∀ k, p < k → k ≤ j → (msgs.getD k noMsg).isTool) →
        (j < c ∨ c ≤ p) := by
  by_cases hle : msgs.length ≤ limit
  · have htr : trimHistory msgs limit = msgs := by
      unfold trimHistory
      rw [if_pos hle]
    constructor
    · intro m hm
      rw [htr] at hm
      match msgs, hm with
      | a :: t, hm =>
        have ha : a = m := by simpa using hm
        have h0 := (hwf 0 (by simp)).1
        subst ha
        simp only [List.getD_cons_zero] at h0
        by_contra hT
        have := h0 (by simpa using hT)
        omega
    · exact ⟨0, by rw [htr, List.drop_zero], fun p j _ _ _ _ => Or.inr (Nat.zero_le _)⟩
  · have hlen : limit < msgs.length := by omega
    obtain ⟨hcut, hnt⟩ := trimCut_eq_of_wf msgs limit hwf hlen
    have htr : trimHistory msgs limit = msgs.drop (trimCut msgs limit) := by
      unfold trimHistory
      rw [if_neg hle]
    constructor
    · intro m hm
      rw [htr] at hm
      have hne : msgs.drop (trimCut msgs limit) ≠ [] := by
        intro hnil
        rw [hnil] at hm
        simp at hm
      have hclen : trimCut msgs limit < msgs.length := by
        by_contra hge
        exact hne (List.drop_eq_nil_of_le (by omega))
      have hm0 : (msgs.drop (trimCut msgs limit)).getD 0 noMsg = m := by
        match h : msgs.drop (trimCut msgs limit), hm with
        | a :: t, hm => simpa using hm
      rw [getD_drop, Nat.add_zero] at hm0
      rw [hcut] at hclen hm0
      have := hnt hclen
      rw [hm0] at this
      simpa using this
    · refine ⟨trimCut msgs limit, htr, ?_⟩
      intro p j hpj hjlen htc htools
      rcases le_or_lt (trimCut msgs limit) p with h | h
      · exact Or.inr h
      · left
        by_contra hj
        have hcj : trimCut msgs limit ≤ j := by omega
        have hclt : trimCut msgs limit < msgs.length := by omega
        have hT := htools (trimCut msgs limit) h hcj
        rw [hcut] at hclt hT
        exact hnt hclt hT

/-- Example well-formed history: user, assistant carrying a tool call,
its tool result, then a user message. -/
def trimExample : List Msg :=
  [⟨"user", "hi", []⟩,
   ⟨"assistant", "", [⟨"web_search", PyVal.obj []⟩]⟩,
   ⟨"tool", "result", []⟩,
   ⟨"user", "thanks", []⟩]

theorem trim_history_preserves_tool_groups_witness :
    (∀ m, (trimHistory trimExample 2).head? = some m → m.isTool = false) ∧
    ∃ c, trimHistory trimExample 2 = trimExample.drop c ∧
      ∀ p j, p < j → j < trimExample.length →
        (trimExample.getD p noMsg).hasTC →
        (∀ k, p < k → k ≤ j → (trimExample.getD k noMsg).isTool) →
        (j < c ∨ c ≤ p) :=
  trim_history_preserves_tool_groups trimExample 2 (by decide)

/-- C2 counterexample: the claim quantifies over every history, but on
the history `[tool-message]` (within the limit, so the trim is a no-op)
the trimmed history still has a `tool` message at index 0. -/
theorem trim_history_claim_counterexample :
    (trimHistory [⟨"tool", "r", []⟩] 20).head? = some ⟨"tool", "r", []⟩ ∧
    Msg.isTool ⟨"tool", "r", []⟩ = true :=
  ⟨rfl, rfl⟩

/-! ## Tool dispatch — `src/voice_assistant/tool_router.py`

`json.loads` is an external collaborator and is passed in as a partial
parse function `jparse`; a tool's async `execute` (and the optional
Pydantic validator) are likewise passed in as functions, an exception
being modelled as `Except.error (kind, message)`. -/

/-- A registered tool as the dispatcher sees it: its name, the optional
input-validation model, and the executor. -/
structure ToolImpl where
  name : String
  inputModel : Option (List (String × PyVal) →
    Except String (List (String × PyVal)))
  execute : List (String × PyVal) → Except (String × String) String

/-- `get_tool`: look up the registry by name (`None` when absent). -/
def getTool (registry : List ToolImpl) (name : String) : Option ToolImpl :=
  registry.find? (fun t => t.name = name)

/-- The `", ".join(...)` of the registered tool names. -/
def joinNames (registry : List ToolImpl) : String :=
  String.intercalate ", " (registry.map (fun t => t.name))

/-- The validation + execution tail of `dispatch_tool_call`, after the
arguments have been normalised to a dict. -/
def runTool (name : String) (tool : ToolImpl)
    (args : List (String × PyVal)) : String :=
  match tool.inputModel with
  | some validator =>
    match validator args with
    | .error e => "Error: invalid arguments for '" ++ name ++ "': " ++ e
    | .ok args' =>
      match tool.execute args' with
      | .ok r => r
      | .error (k, m) =>
        "Error executing '" ++ name ++ "': " ++ k ++ ": " ++ m
  | none =>
    match tool.execute args with
    | .ok r => r
    | .error (k, m) =>
      "Error executing '" ++ name ++ "': " ++ k ++ ": " ++ m

/-- `dispatch_tool_call(name, args)`: parse string arguments as JSON,
replace non-dict arguments by `{}`, look the tool up, validate and
execute, converting every failure into an error string. -/
def dispatchToolCall (jparse : String → Option PyVal)
    (registry : List ToolImpl) (name : String) (args : PyVal) : String :=
  let parsed : Except String PyVal :=
    match args with
    | .str s =>
      match jparse s with
      | some v => .ok v
      | none => .error ("Error: invalid JSON arguments for tool '" ++ name
          ++ "': " ++ s.take 200)
    | v => .ok v
  match parsed with
  | .error e => e
  | .ok v =>
    let argsDict : List (String × PyVal) :=
      match v with
      | .obj fields => fields
      | _ => []
    match getTool registry name with
    | none => "Error: unknown tool '" ++ name ++ "'. Available tools: "
        ++ joinNames registry
    | some tool => runTool name tool argsDict

/-- C3: the dispatcher is a total function into strings (it never
raises); a string argument that fails to parse as JSON yields the
invalid-JSON error string, an unknown tool name yields the error string
listing the registered names, and an executor exception `(kind, msg)` is
returned as `Error executing '<name>': <kind>: <msg>`. -/
theorem dispatch_tool_call_contract (jparse : String → Option PyVal)
    (registry : List ToolImpl) (name : String) :
    (∀ s, jparse s = none →
      dispatchToolCall jparse registry name (.str s)
        = "Error: invalid JSON arguments for tool '" ++ name ++ "': "
          ++ s.take 200) ∧
    (∀ fields, getTool registry name = none →
      dispatchToolCall jparse registry name (.obj fields)
        = "Error: unknown tool '" ++ name ++ "'. Available tools: "
          ++ joinNames registry) ∧
    (∀ fields tool k m, getTool registry name = some tool →
      tool.inputModel = none → tool.execute fields = .error (k, m) →
      dispatchToolCall jparse registry name (.obj fields)
        = "Error executing '" ++ name ++ "': " ++ k ++ ": " ++ m) := by
  refine ⟨?_, ?_, ?_⟩
  · intro s hs
    simp [dispatchToolCall, hs]
  · intro fields hnone
    simp [dispatchToolCall, hnone]
  · intro fields tool k m hfind hval hexec
    simp [dispatchToolCall, hfind, runTool, hval, hexec]

/-- A concrete registry whose single tool always raises, plus a parser
that rejects everything, used to instantiate the dispatch contract. -/
def failTool : ToolImpl :=
  ⟨"web_search", none, fun _ => .error ("RuntimeError", "boom")⟩

theorem dispatch_tool_call_contract_witness :
    dispatchToolCall (fun _ => none) [failTool] "web_search" (.str "\x7boops")
        = "Error: invalid JSON arguments for tool '" ++ "web_search" ++ "': "
          ++ ("\x7boops" : String).take 200 ∧
    dispatchToolCall (fun _ => none) [failTool] "nope" (.obj [])
        = "Error: unknown tool '" ++ "nope" ++ "'. Available tools: "
          ++ joinNames [failTool] ∧
    dispatchToolCall (fun _ => none) [failTool] "web_search" (.obj [])
        = "Error executing '" ++ "web_search" ++ "': " ++ "RuntimeError"
          ++ ": " ++ "boom" :=
  ⟨(dispatch_tool_call_contract (fun _ => none) [failTool] "web_search").1
      "\x7boops" rfl,
   (dispatch_tool_call_contract (fun _ => none) [failTool] "nope").2.1
      [] rfl,
   (dispatch_tool_call_contract (fun _ => none) [failTool] "web_search").2.2
      [] failTool "RuntimeError" "boom" rfl rfl rfl⟩

/-- C10: an argument value that is neither a mapping nor a string (a
list, a number, a bool, or `None`) is silently replaced by the empty
mapping — dispatch proceeds exactly as if called with `{}`, and no error
string is produced for the argument type itself. -/
theorem dispatch_non_mapping_args_replaced (jparse : String → Option PyVal)
    (registry : List ToolImpl) (name : String) (items : List PyVal)
    (k : Int) (b : Bool) :
    dispatchToolCall jparse registry name (.arr items)
        = dispatchToolCall jparse registry name (.obj []) ∧
    dispatchToolCall jparse registry name (.num k)
        = dispatchToolCall jparse registry name (.obj []) ∧
    dispatchToolCall jparse registry name (.bool b)
        = dispatchToolCall jparse registry name (.obj []) ∧
    dispatchToolCall jparse registry name .null
        = dispatchToolCall jparse registry name (.obj []) := by
  refine ⟨rfl, rfl, rfl, rfl⟩

/-! ## Text-fallback tool-call parser — `Orchestrator._parse_text_tool_calls`

The regex `(?:^|['"`\s])(\w+)\s*\(?\s*(\{[^}]*\})\s*\)?` is embedded as a
deterministic scanner: every sub-pattern (`\w+` greedy, `\s*`, `\(?`,
`[^}]*` greedy, `\s*\)?`) operates on a character class disjoint from
what must follow it, so the Python backtracking engine never needs to
backtrack and leftmost scanning with resumption after each match (the
`finditer` semantics) is faithful.  Character classes are modelled over
ASCII. -/

def lbrace : Char := '\x7b'

def rbrace : Char := '\x7d'

def backquote : Char := '\x60'

def squote : Char := '\x27'

def dquote : Char := '\x22'

/-- `\w` (ASCII). -/
def isWordChar (c : Char) : Bool := c.isAlpha || c.isDigit || c = '_'

/-- `\s` (ASCII). -/
def isSpaceChar (c : Char) : Bool :=
  c = ' ' || c = '\t' || c = '\n' || c = '\r' || c = '\x0b' || c = '\x0c'

/-- ASCII `str.lower()`. -/
def lowerChar (c : Char) : Char :=
  if 'A' ≤ c ∧ c ≤ 'Z' then Char.ofNat (c.toNat + 32) else c

def lowerStr (s : String) : String := String.mk (s.data.map lowerChar)

/-- The character class `['"`\s]` before the tool name. -/
def isBoundChar (c : Char) : Bool :=
  c = squote || c = dquote || c = backquote || isSpaceChar c

/-- Match `(\w+)\s*\(?\s*(\{[^}]*\})\s*\)?` at the head of `cs`,
returning the name group, the brace group and the rest of the input
after the match. -/
def tryCore (cs : List Char) : Option (String × String × List Char) :=
  let w := cs.takeWhile isWordChar
  if w.isEmpty then none
  else
    let r1 := (cs.dropWhile isWordChar).dropWhile isSpaceChar
    let r2 :=
      match r1 with
      | c :: t => if c = '(' then t.dropWhile isSpaceChar else r1
      | [] => r1
    match r2 with
    | c :: t =>
      if c = lbrace then
        let mid := t.takeWhile (fun d => d ≠ rbrace)
        match t.dropWhile (fun d => d ≠ rbrace) with
        | d :: t3 =>
          if d = rbrace then
            let t4 := t3.dropWhile isSpaceChar
            let t5 :=
              match t4 with
              | e :: u => if e = ')' then u else t4
              | [] => t4
            some (String.mk w, String.mk (lbrace :: (mid ++ [rbrace])), t5)
          else none
        | [] => none
      else none
    | [] => none

/-- `finditer` over the pattern: at each position try to match (at
position 0 the `^` alternative first, elsewhere a boundary character
followed by the core), emit the groups, and resume after the match. -/
def scanAux : Nat → List Char → Bool → List (String × String)
  | 0, _, _ => []
  | _ + 1, [], _ => []
  | fuel + 1, c :: rest, atStart =>
    match (if atStart then tryCore (c :: rest) else none) with
    | some (n, b, r) => (n, b) :: scanAux fuel r false
    | none =>
      if isBoundChar c then
        match tryCore rest with
        | some (n, b, r) => (n, b) :: scanAux fuel r false
        | none => scanAux fuel rest false
      else scanAux fuel rest false

def scanMatches (s : String) : List (String × String) :=
  scanAux (s.data.length + 1) s.data true

/-- `_TOOL_ALIASES`. -/
def toolAliases : List (String × String) :=
  [("gc_search", "web_search"),
   ("search", "web_search"),
   ("web_search", "web_search"),
   ("check_calendar", "check_calendar"),
   ("calendar", "check_calendar"),
   ("get_calendar", "check_calendar"),
   ("search_notes", "search_notes"),
   ("notes", "search_notes"),
   ("get_notes", "search_notes")]

/-- `Orchestrator._parse_text_tool_calls`: for each regex match, lower
the name, resolve it through the alias table (skipping unknown names),
parse the brace group as JSON (skipping parse failures), and emit a
tool-call record. -/
def parseTextToolCalls (jp : String → Option PyVal) (text : String) :
    List ToolCallRec :=
  (scanMatches text).filterMap (fun m =>
    match toolAliases.lookup (lowerStr m.1) with
    | none => none
    | some tn =>
      match jp m.2 with
      | none => none
      | some a => some ⟨tn, a⟩)

/-- C5 (amended): the parser emits a call for every scanner match whose
name resolves through the alias table and whose brace group parses as
JSON — and nothing else: every emitted call arises from such a match;
matches with unknown names or unparsable braces are skipped. -/
theorem parse_text_tool_calls_matches (jp : String → Option PyVal)
    (text : String) (n b tn : String) (a : PyVal)
    (hmem : (n, b) ∈ scanMatches text)
    (halias : toolAliases.lookup (lowerStr n) = some tn)
    (hjp : jp b = some a) :
    (⟨tn, a⟩ : ToolCallRec) ∈ parseTextToolCalls jp text ∧
    ∀ c ∈ parseTextToolCalls jp text, ∃ m ∈ scanMatches text,
      toolAliases.lookup (lowerStr m.1) = some c.name ∧
      jp m.2 = some c.args := by
  constructor
  · exact List.mem_filterMap.mpr ⟨(n, b), hmem, by simp [halias, hjp]⟩
  · intro c hc
    obtain ⟨m, hm, hf⟩ := List.mem_filterMap.mp hc
    refine ⟨m, hm, ?_⟩
    revert hf
    cases hal : toolAliases.lookup (lowerStr m.1) with
    | none => simp
    | some tn' =>
      cases hj : jp m.2 with
      | none => simp
      | some a' =>
        intro hf
        simp only [Option.some_inj] at hf
        subst hf
        exact ⟨rfl, rfl⟩

/-- JSON parse oracle for the C5 instances: honest on the one brace
group that occurs in them, rejecting everything else. -/
def jpKV (s : String) : Option PyVal :=
  if s = "\x7b\"k\":\"v\"\x7d" then
    some (PyVal.obj [("k", PyVal.str "v")])
  else none

theorem parse_text_tool_calls_matches_witness :
    (⟨"web_search", PyVal.obj [("k", PyVal.str "v")]⟩ : ToolCallRec)
        ∈ parseTextToolCalls jpKV "search \x7b\"k\":\"v\"\x7d" ∧
    ∀ c ∈ parseTextToolCalls jpKV "search \x7b\"k\":\"v\"\x7d",
      ∃ m ∈ scanMatches "search \x7b\"k\":\"v\"\x7d",
        toolAliases.lookup (lowerStr m.1) = some c.name ∧
        jpKV m.2 = some c.args :=
  parse_text_tool_calls_matches jpKV "search \x7b\"k\":\"v\"\x7d"
    "search" "\x7b\"k\":\"v\"\x7d" "web_search" (PyVal.obj [("k", PyVal.str "v")])
    (by decide) (by decide) rfl

/-- C5 counterexample: `xsearch {"k":"v"}` contains the substring
`search {"k":"v"}` whose name is an alias-table key and whose braces are
valid JSON, yet the parser emits nothing — the regex grabs the larger
word `xsearch`, which resolves to no alias. -/
theorem parse_text_tool_calls_counterexample :
    ("search \x7b\"k\":\"v\"\x7d".data
        <:+: "xsearch \x7b\"k\":\"v\"\x7d".data) ∧
    toolAliases.lookup "search" = some "web_search" ∧
    jpKV "\x7b\"k\":\"v\"\x7d" = some (PyVal.obj [("k", PyVal.str "v")]) ∧
    parseTextToolCalls jpKV "xsearch \x7b\"k\":\"v\"\x7d" = [] :=
  ⟨⟨['x'], [], rfl⟩, rfl, rfl, rfl⟩

/-! ## Thinking-block stripping and the no-tool-calls chat branch —
`Orchestrator._strip_thinking` / `Orchestrator.chat` -/

/-- Index of the first occurrence of `pat` in `l`. -/
def findSub (pat : List Char) : List Char → Option Nat
  | [] => if pat.isEmpty then some 0 else none
  | c :: rest =>
    if pat.isPrefixOf (c :: rest) then some 0
    else (findSub pat rest).map (· + 1)

/-- `re.sub` with the non-greedy pattern `<think>.*?</think>` and empty
replacement: at each position, if `<think>` matches here and a
`</think>` occurs later, delete through the first such close tag and
resume after it; otherwise move one character on. -/
def removeThinkAux : Nat → List Char → List Char
  | 0, l => l
  | _ + 1, [] => []
  | fuel + 1, c :: rest =>
    if ("<think>".data).isPrefixOf (c :: rest) then
      match findSub ("</think>".data) ((c :: rest).drop 7) with
      | some k => removeThinkAux fuel ((c :: rest).drop (7 + k + 8))
      | none => c :: removeThinkAux fuel rest
    else c :: removeThinkAux fuel rest

/-- Python `str.strip()` over the ASCII whitespace model. -/
def stripChars (l : List Char) : List Char :=
  ((l.dropWhile isSpaceChar).reverse.dropWhile isSpaceChar).reverse

/-- `Orchestrator._strip_thinking`. -/
def stripThinking (s : String) : String :=
  String.mk (stripChars (removeThinkAux (s.data.length + 1) s.data))

/-- The fields of the Ollama `/api/chat` response message that the chat
loop looks at: `content` (default `""`) and `tool_calls` (default `[]`). -/
structure LlmResponse where
  content : String
  toolCalls : List ToolCallRec

def assistantMsg (text : String) : Msg := ⟨"assistant", text, []⟩

/-- One iteration of `Orchestrator.chat` from the model response up to
the no-tool-calls exit: strip thinking blocks, run the text-fallback
parser when there are no structured calls and the text is non-empty,
and if still no tool calls return the new history and the reply text
(`none` means the iteration continues into the tool-execution phase). -/
def chatNoToolOutcome (jp : String → Option PyVal) (history : List Msg)
    (resp : LlmResponse) : Option (List Msg × String) :=
  let text0 := stripThinking resp.content
  let st :=
    if resp.toolCalls.isEmpty && !(text0 == "") then
      let parsed := parseTextToolCalls jp text0
      if parsed.isEmpty then (resp.toolCalls, text0) else (parsed, "")
    else (resp.toolCalls, text0)
  if st.1.isEmpty then
    some ((if st.2 = "" then history else history ++ [assistantMsg st.2]),
          st.2)
  else none

/-- C9 (amended): when the reply yields no tool calls the orchestrator
returns the stripped text, but appends `{role: assistant, content}` to
the history only when that text is non-empty — an empty reply leaves
the history unchanged. -/
theorem chat_no_tool_calls_branch (jp : String → Option PyVal)
    (history : List Msg) (resp : LlmResponse)
    (htc : resp.toolCalls = []) :
    (stripThinking resp.content = "" →
      chatNoToolOutcome jp history resp = some (history, "")) ∧
    (stripThinking resp.content ≠ "" →
      parseTextToolCalls jp (stripThinking resp.content) = [] →
      chatNoToolOutcome jp history resp
        = some (history ++ [assistantMsg (stripThinking resp.content)],
                stripThinking resp.content)) := by
  constructor
  · intro hempty
    simp [chatNoToolOutcome, htc, hempty]
  · intro hne hparse
    simp [chatNoToolOutcome, htc, hne, hparse]

theorem chat_no_tool_calls_branch_witness :
    chatNoToolOutcome (fun _ => none) [] ⟨"Hello.", []⟩
      = some ([] ++ [assistantMsg (stripThinking "Hello.")],
              stripThinking "Hello.") :=
  (chat_no_tool_calls_branch (fun _ => none) [] ⟨"Hello.", []⟩ rfl).2
    (by decide) rfl

/-- C9 counterexample: with an empty reply and no tool calls the code
returns `""` but appends nothing — the history stays empty instead of
gaining `{role: assistant, content: ""}` as the claim states. -/
theorem chat_no_tool_calls_counterexample :
    chatNoToolOutcome (fun _ => none) [] ⟨"", []⟩ = some ([], "") ∧
    ([] : List Msg) ≠ [assistantMsg ""] := by
  exact ⟨rfl, by simp⟩

/-! ## Mic ingestor — `Session._recv_mic_audio` in `src/gateway/webrtc.py`

A decoded inbound frame is modelled by its sample count and the
flattened sample array (already converted to int16 range by the float
scaling, which changes values but never the element count).  `tobytes`
of an int16 array is two little-endian bytes per element. -/

/-- NumPy strided selection `flat[::k]`. -/
def strideSel {α : Type} (k : Nat) : List α → List α
  | [] => []
  | x :: rest => x :: strideSel k (rest.drop (k - 1))
termination_by l => l.length
decreasing_by
  have := List.length_drop (k - 1) rest
  simp_wf
  omega

/-- Two little-endian bytes of an int16 value. -/
def int16LE (v : Int) : List Nat :=
  [((v % 65536).toNat) % 256, ((v % 65536).toNat) / 256]

/-- Processing of one received mic frame: when recording, flatten, take
one channel if interleaved, convert to bytes and append to the
recording buffer; otherwise leave the buffer alone. -/
def micStep (recording : Bool) (samples : Nat) (flat : List Int)
    (buf : List (List Nat)) : List (List Nat) :=
  if recording then
    let channels := flat.length / samples
    let sel := if 1 < channels then strideSel channels flat else flat
    let pcm := (sel.map int16LE).flatten
    buf ++ [pcm]
  else buf

theorem strideSel_length {α : Type} (c : Nat) (hc : 1 ≤ c) :
    ∀ (s : Nat) (l : List α), l.length = s * c →
      (strideSel c l).length = s := by
  intro s
  induction s with
  | zero =>
    intro l hl
    have : l = [] := List.eq_nil_of_length_eq_zero (by omega)
    subst this
    simp [strideSel]
  | succ s ih =>
    intro l hl
    match l with
    | [] => simp at hl; omega
    | x :: rest =>
      rw [strideSel]
      have hr : (rest.drop (c - 1)).length = s * c := by
        simp only [List.length_drop]
        simp only [List.length_cons] at hl
        have : (s + 1) * c = s * c + c := by ring
        omega
      simp [ih _ hr]

theorem int16_bytes_length (l : List Int) :
    ((l.map int16LE).flatten).length = 2 * l.length := by
  induction l with
  | nil => simp
  | cons x t ih => simp [int16LE, ih]; omega

/-- C6: for every inbound frame (with `samples ≥ 1` samples per channel
and `ch ≥ 1` channels, the flattened array holding `samples × ch`
elements), the ingestor appends exactly one blob of `2 × samples` bytes
to the recording buffer when recording is on, and leaves the buffer
untouched when recording is off. -/
theorem mic_ingestor_append_bytes (samples ch : Nat) (flat : List Int)
    (buf : List (List Nat)) (hlen : flat.length = samples * ch)
    (hch : 1 ≤ ch) (hs : 1 ≤ samples) :
    ((micStep true samples flat buf).map List.length).sum
        = ((buf.map List.length).sum) + 2 * samples ∧
    (micStep true samples flat buf).length = buf.length + 1 ∧
    micStep false samples flat buf = buf := by
  have hchan : flat.length / samples = ch := by
    rw [hlen, Nat.mul_div_cancel_left _ (by omega)]
  have hsel : (if 1 < flat.length / samples then
      strideSel (flat.length / samples) flat else flat).length = samples := by
    rw [hchan]
    by_cases h1 : 1 < ch
    · rw [if_pos h1]
      exact strideSel_length ch hch samples flat (by rw [hlen])
    · rw [if_neg h1]
      have : ch = 1 := by omega
      rw [hlen, this]
      ring
  refine ⟨?_, ?_, ?_⟩
  · simp only [micStep, if_true, List.map_append, List.sum_append,
      List.map_cons, List.map_nil, List.sum_cons, List.sum_nil]
    rw [int16_bytes_length, hsel]
    ring
  · simp [micStep]
  · simp [micStep]

theorem mic_ingestor_append_bytes_witness :
    ((micStep true 2 [1, 2, 3, 4] []).map List.length).sum
        = ((([] : List (List Nat)).map List.length).sum) + 2 * 2 ∧
    (micStep true 2 [1, 2, 3, 4] []).length
        = ([] : List (List Nat)).length + 1 ∧
    micStep false 2 [1, 2, 3, 4] [] = [] :=
  mic_ingestor_append_bytes 2 2 [1, 2, 3, 4] [] rfl (by decide) (by decide)

/-! ## Sentence splitting — `Session._split_sentences` -/

/-- The lookbehind class `[.!?]`. -/
def isEnd (c : Char) : Bool := c = '.' || c = '!' || c = '?'

theorem dropWhile_length_le {α : Type} (p : α → Bool) (l : List α) :
    (l.dropWhile p).length ≤ l.length := by
  induction l with
  | nil => simp
  | cons a t ih =>
    by_cases hp : p a <;> simp [List.dropWhile_cons, hp] <;> omega

/-- No `[.!?]` character is immediately followed by whitespace. -/
def noBoundary : List Char → Bool
  | [] => true
  | [_] => true
  | a :: b :: t => !(isEnd a && isSpaceChar b) && noBoundary (b :: t)

theorem noBoundary_chain' (l : List Char) (h : noBoundary l = true) :
    List.Chain' (fun a b => ¬(isEnd a ∧ isSpaceChar b)) l := by
  induction l with
  | nil => exact List.chain'_nil
  | cons a t ih =>
    match t with
    | [] => simp
    | b :: t' =>
      rw [noBoundary, Bool.and_eq_true] at h
      rw [List.chain'_cons]
      refine ⟨?_, ih h.2⟩
      intro ⟨h1, h2⟩
      rw [h1, h2] at h
      simp at h

/-- Whether the current (reversed) piece ends in `[.!?]` — the regex
lookbehind. -/
def endsWithPunct (cur : List Char) : Bool :=
  match cur with
  | p :: _ => isEnd p
  | [] => false

/-- `re.split(r'(?<=[.!?])\s+', ...)`: walk the characters keeping the
current piece (reversed); a whitespace character whose predecessor is
sentence-ending punctuation closes the piece and swallows the whole
whitespace run. -/
def sentAux : List Char → List Char → List (List Char)
  | [], cur => [cur.reverse]
  | c :: rest, cur =>
    if isSpaceChar c && endsWithPunct cur then
      cur.reverse :: sentAux (rest.dropWhile isSpaceChar) []
    else sentAux rest (c :: cur)
termination_by l _ => l.length
decreasing_by
  · simp_wf
    have := dropWhile_length_le isSpaceChar rest
    omega
  · simp_wf

/-- `Session._split_sentences`: split the stripped text at the
boundaries and drop pieces that are empty after stripping. -/
def splitSentences (s : String) : List String :=
  ((sentAux (stripChars s.data) []).filter
    (fun p => !(stripChars p).isEmpty)).map (fun p => String.mk p)

theorem dropWhile_idem {α : Type} (p : α → Bool) (l : List α) :
    (l.dropWhile p).dropWhile p = l.dropWhile p := by
  induction l with
  | nil => simp
  | cons a t ih =>
    by_cases hp : p a
    · simp [List.dropWhile_cons, hp, ih]
    · simp [List.dropWhile_cons, hp]

theorem head?_dropWhile_not {α : Type} (p : α → Bool) (l : List α) (x : α)
    (h : (l.dropWhile p).head? = some x) : ¬ p x := by
  induction l with
  | nil => simp at h
  | cons a t ih =>
    by_cases hp : p a
    · rw [List.dropWhile_cons, if_pos hp] at h
      exact ih h
    · rw [List.dropWhile_cons, if_neg hp] at h
      simp only [List.head?_cons, Option.some_inj] at h
      subst h
      exact hp

theorem dropWhile_eq_self_of_head {α : Type} (p : α → Bool) (l : List α)
    (h : ∀ x, l.head? = some x → ¬ p x) : l.dropWhile p = l := by
  match l with
  | [] => simp
  | a :: t =>
    rw [List.dropWhile_cons, if_neg (h a rfl)]

/-- `stripChars` yields a contiguous infix of its input. -/
theorem stripChars_isInfixOf (l : List Char) : stripChars l <:+: l := by
  have h1 : l.dropWhile isSpaceChar <:+ l := List.dropWhile_suffix _
  have h2 : (l.dropWhile isSpaceChar).reverse.dropWhile isSpaceChar
      <:+ (l.dropWhile isSpaceChar).reverse := List.dropWhile_suffix _
  have h3 : stripChars l <+: l.dropWhile isSpaceChar := by
    have := h2.reverse
    rwa [List.reverse_reverse] at this
  exact (h3.isInfix).trans h1.isInfix

/-- Stripping is idempotent. -/
theorem stripChars_idem (l : List Char) :
    stripChars (stripChars l) = stripChars l := by
  unfold stripChars
  set A := l.dropWhile isSpaceChar with hA
  set B := A.reverse.dropWhile isSpaceChar with hB
  have hpre : B.reverse <+: A := by
    have := (@List.dropWhile_suffix _ A.reverse isSpaceChar).reverse
    rwa [List.reverse_reverse] at this
  have hstep1 : B.reverse.dropWhile isSpaceChar = B.reverse := by
    apply dropWhile_eq_self_of_head
    intro x hx
    obtain ⟨t, ht⟩ := hpre
    have hxA : A.head? = some x := by
      match hBr : B.reverse, hx with
      | y :: ys, hx =>
        simp only [List.head?_cons, Option.some_inj] at hx
        subst hx
        rw [← ht, hBr]
        rfl
    exact head?_dropWhile_not isSpaceChar l x (by rw [← hA]; exact hxA)
  rw [hstep1, List.reverse_reverse, hB, dropWhile_idem]

/-- In a character list free of `[.!?]`-then-whitespace pairs the
splitter never cuts. -/
theorem sentAux_no_boundary
    (cs cur : List Char)
    (hbf : List.Chain' (fun a b => ¬(isEnd a ∧ isSpaceChar b))
      (cur.reverse ++ cs)) :
    sentAux cs cur = [cur.reverse ++ cs] := by
  induction cs generalizing cur with
  | nil => simp [sentAux]
  | cons c rest ih =>
    have hcond : (isSpaceChar c && endsWithPunct cur) = false := by
      match cur with
      | [] => simp [endsWithPunct]
      | p :: t =>
        by_contra hne
        have hand : isSpaceChar c ∧ isEnd p := by
          rcases Bool.not_eq_false _ |>.mp hne |> Bool.and_eq_true_iff.mp
            with ⟨h1, h2⟩
          exact ⟨h1, by simpa [endsWithPunct] using h2⟩
        have hjun := (List.chain'_append.mp hbf).2.2
        have hp : ((p :: t).reverse).getLast? = some p := by
          rw [List.getLast?_reverse]
          rfl
        have := hjun p (by rw [hp]; exact rfl) c rfl
        exact this ⟨hand.2, hand.1⟩
    simp only [sentAux, hcond, Bool.false_eq_true, if_false]
    have heq : (c :: cur).reverse ++ rest = cur.reverse ++ c :: rest := by
      simp
    rw [ih (c :: cur) (by rw [heq]; exact hbf), heq]

/-- C7: the splitter applied to the boundary `(?<=[.!?])\s+` over the
trimmed input yields `[]` on empty or all-whitespace input, and on
input containing no sentence-ending punctuation followed by whitespace
it yields exactly the single piece — the trimmed input itself. -/
theorem split_sentences_shape (s : String) :
    (stripChars s.data = [] → splitSentences s = []) ∧
    (stripChars s.data ≠ [] → noBoundary s.data = true →
      splitSentences s = [String.mk (stripChars s.data)]) := by
  constructor
  · intro h
    have h0 : sentAux [] [] = [[]] := by simp [sentAux]
    unfold splitSentences
    rw [h, h0]
    rfl
  · intro hne hbf
    have hbf' : List.Chain' (fun a b => ¬(isEnd a ∧ isSpaceChar b))
        (stripChars s.data) :=
      List.Chain'.infix (noBoundary_chain' s.data hbf)
        (stripChars_isInfixOf s.data)
    have hsent : sentAux (stripChars s.data) [] = [stripChars s.data] := by
      have := sentAux_no_boundary (stripChars s.data) []
        (by simpa using hbf')
      simpa using this
    unfold splitSentences
    rw [hsent]
    have hkeep : (!(stripChars (stripChars s.data)).isEmpty) = true := by
      rw [stripChars_idem]
      simpa [List.isEmpty_iff] using hne
    simp [hkeep]

theorem split_sentences_shape_witness :
    splitSentences "" = [] ∧
    splitSentences "Hello world" = [String.mk (stripChars "Hello world".data)] :=
  ⟨(split_sentences_shape "").1 rfl,
   (split_sentences_shape "Hello world").2 (by decide) (by decide)⟩

/-! ## Clocked track source — `src/gateway/audio/webrtc_audio_source.py`
with the FIFO-backed producer `QueuedGenerator` of `src/gateway/webrtc.py`.

The real-time pacing (`asyncio.sleep`) does not affect the frame
contents and is not modelled; `np.frombuffer(…, int16)` is the
little-endian pairing of bytes. -/

/-- `np.frombuffer(bytes, dtype=np.int16)` (little-endian). -/
def bytesToI16 : List Nat → List Int
  | b0 :: b1 :: r =>
    (if b0 + 256 * b1 < 32768 then ((b0 + 256 * b1 : Nat) : Int)
     else ((b0 + 256 * b1 : Nat) : Int) - 65536) :: bytesToI16 r
  | _ => []

/-- The fields of the produced `av.AudioFrame` that the claims talk
about: presentation timestamp, time base, samples. -/
structure AFrame where
  pts : Nat
  tbNum : Nat
  tbDen : Nat
  samples : List Int

def noFrame : AFrame := ⟨0, 0, 0, []⟩

/-- `WebRTCAudioSource` state: the frame counter and the attached
generator (`none` = silence; `some q` = the FIFO-backed
`QueuedGenerator` reading 1,920 bytes per call from the queue `q`). -/
structure SrcState where
  frameCount : Nat
  gen : Option AudioQueue

/-- `WebRTCAudioSource.recv`: increment the counter, pull 960 samples
(1,920 bytes via `QueuedGenerator.next_chunk`) or produce silence, and
stamp `pts = (frame_count − 1) × 960`, `time_base = 1/48000`. -/
def recvFrame (st : SrcState) : AFrame × SrcState :=
  let count := st.frameCount + 1
  match st.gen with
  | some q =>
    (⟨(count - 1) * 960, 1, 48000, bytesToI16 (q.read (960 * 2)).1⟩,
     ⟨count, some (q.read (960 * 2)).2⟩)
  | none =>
    (⟨(count - 1) * 960, 1, 48000, List.replicate 960 0⟩, ⟨count, none⟩)

/-- The frames produced by `n` successive `recv` calls. -/
def recvSeq (st : SrcState) : Nat → List AFrame
  | 0 => []
  | n + 1 => (recvFrame st).1 :: recvSeq (recvFrame st).2 n

theorem bytesToI16_length : ∀ l : List Nat,
    (bytesToI16 l).length = l.length / 2
  | [] => by simp [bytesToI16]
  | [_] => by simp [bytesToI16]
  | b0 :: b1 :: r => by
    simp only [bytesToI16, List.length_cons, bytesToI16_length r]
    omega

theorem recvFrame_samples (st : SrcState) :
    ((recvFrame st).1).samples.length = 960 := by
  match st with
  | ⟨c, none⟩ =>
    show (List.replicate 960 (0 : Int)).length = 960
    exact List.length_replicate _ _
  | ⟨c, some q⟩ =>
    show (bytesToI16 (AudioQueue.read q (960 * 2)).1).length = 960
    rw [bytesToI16_length, AudioQueue.read_length]

theorem recvSeq_frame_props : ∀ (n : Nat) (st : SrcState) (i : Nat),
    i < n →
    ((recvSeq st n).getD i noFrame).pts = (st.frameCount + i) * 960 ∧
    ((recvSeq st n).getD i noFrame).tbNum = 1 ∧
    ((recvSeq st n).getD i noFrame).tbDen = 48000 ∧
    ((recvSeq st n).getD i noFrame).samples.length = 960 := by
  intro n
  induction n with
  | zero => intro st i hi; omega
  | succ n ih =>
    intro st i hi
    match i with
    | 0 =>
      simp only [recvSeq, List.getD_cons_zero]
      refine ⟨?_, ?_, ?_, recvFrame_samples st⟩ <;>
        all_goals
          match st with
          | ⟨c, none⟩ => rfl
          | ⟨c, some q⟩ => rfl
    | i + 1 =>
      simp only [recvSeq, List.getD_cons_succ]
      have hfc : ((recvFrame st).2).frameCount = st.frameCount + 1 := by
        match st with
        | ⟨c, none⟩ => rfl
        | ⟨c, some q⟩ => rfl
      have := ih (recvFrame st).2 i (by omega)
      rw [hfc] at this
      refine ⟨?_, this.2⟩
      rw [this.1]
      ring_nf

/-- C4: starting from a fresh clocked source — with no generator, or
with the FIFO-backed generator over any queue state — the `i`-th frame
(0-based) of any run of `recv` calls has `pts = i × 960` (so PTS rises
by exactly 960 per frame), time base `1/48000`, and exactly 960 signed
16-bit samples (1,920 bytes). -/
theorem clocked_source_frames (g : Option AudioQueue) (n i : Nat)
    (h : i < n) :
    ((recvSeq ⟨0, g⟩ n).getD i noFrame).pts = i * 960 ∧
    ((recvSeq ⟨0, g⟩ n).getD i noFrame).tbNum = 1 ∧
    ((recvSeq ⟨0, g⟩ n).getD i noFrame).tbDen = 48000 ∧
    ((recvSeq ⟨0, g⟩ n).getD i noFrame).samples.length = 960 := by
  have := recvSeq_frame_props n ⟨0, g⟩ i h
  simpa using this

theorem clocked_source_frames_witness :
    ((recvSeq ⟨0, some ⟨[[1, 2, 3]], [], 0⟩⟩ 3).getD 1 noFrame).pts
        = 1 * 960 ∧
    ((recvSeq ⟨0, some ⟨[[1, 2, 3]], [], 0⟩⟩ 3).getD 1 noFrame).tbNum = 1 ∧
    ((recvSeq ⟨0, some ⟨[[1, 2, 3]], [], 0⟩⟩ 3).getD 1 noFrame).tbDen
        = 48000 ∧
    ((recvSeq ⟨0, some ⟨[[1, 2, 3]], [], 0⟩⟩ 3).getD 1 noFrame).samples.length
        = 960 :=
  clocked_source_frames (some ⟨[[1, 2, 3]], [], 0⟩) 3 1 (by decide)

/-! ## Signalling: the `webrtc_offer` branch — `src/gateway/server.py`

The per-connection handler state is modelled by the optional current
session (identified by a creation counter) and the next fresh id;
`Session.handle_offer` is an external collaborator
`answerOf : session id → offer SDP → answer SDP`. -/

structure WsConn where
  session : Option Nat
  nextSession : Nat
deriving Repr, DecidableEq

inductive WsReply where
  | errorMsg (m : String)
  | webrtcAnswer (sdp : String)
deriving Repr, DecidableEq

/-- The `webrtc_offer` branch of `handle_ws`: reject an empty SDP,
otherwise construct a fresh `Session` (unconditionally — the branch
contains no check of the existing `session` variable), call
`handle_offer` on it, and reply `webrtc_answer` with the answer SDP. -/
def webrtcOfferStep (answerOf : Nat → String → String) (st : WsConn)
    (sdp : String) : WsConn × WsReply :=
  if sdp = "" then (st, .errorMsg "Missing SDP")
  else (⟨some st.nextSession, st.nextSession + 1⟩,
        .webrtcAnswer (answerOf st.nextSession sdp))

/-- C8 (amended): on `webrtc_offer` with a non-empty SDP the handler
always creates a fresh `Session` — replacing any existing one rather
than reusing it — calls `handle_offer` on the new session, and replies
`webrtc_answer` carrying the answer SDP; an empty SDP draws an error
reply and leaves the session unchanged. -/
theorem webrtc_offer_always_fresh_session (answerOf : Nat → String → String)
    (st : WsConn) (sdp : String) (h : sdp ≠ "") :
    webrtcOfferStep answerOf st sdp
        = (⟨some st.nextSession, st.nextSession + 1⟩,
           .webrtcAnswer (answerOf st.nextSession sdp)) ∧
    webrtcOfferStep answerOf st "" = (st, .errorMsg "Missing SDP") := by
  constructor
  · simp [webrtcOfferStep, h]
  · simp [webrtcOfferStep]

theorem webrtc_offer_always_fresh_session_witness :
    webrtcOfferStep (fun _ s => s) ⟨none, 0⟩ "v=0"
        = (⟨some 0, 1⟩, .webrtcAnswer ((fun _ (s : String) => s) 0 "v=0")) ∧
    webrtcOfferStep (fun _ s => s) ⟨none, 0⟩ ""
        = (⟨none, 0⟩, .errorMsg "Missing SDP") :=
  webrtc_offer_always_fresh_session (fun _ s => s) ⟨none, 0⟩ "v=0"
    (by decide)

/-- C8 counterexample: a connection that already holds a session
(id 0) receives another `webrtc_offer`; the handler binds a brand-new
session (id 1) instead of reusing the existing one. -/
theorem webrtc_offer_no_reuse_counterexample :
    (webrtcOfferStep (fun _ s => s) ⟨some 0, 1⟩ "v=0").1.session = some 1 ∧
    some (1 : Nat) ≠ some 0 :=
  ⟨rfl, by decide⟩
